import Mathlib

/-!
Verification development for the scapy-packet_viewer AnalyzeCANView core:
the bit statistics of `custom_views/analyze_can_view/utils.py`, the ASCII
layout renderer of `custom_views/analyze_can_view/message_layout_string.py`,
and the asynchronous analysis orchestration of
`custom_views/analyze_can_view/analyze_can_view.py`.
-/

namespace SpecProof

/-! ## BitStatistics: `utils.py` -/

/-- Adjacent pairs of a list, modelling the numpy pairing of
`xs[1:]` with `xs[:-1]`: element `i` of the result is `(xs[i], xs[i+1])`. -/
def adjacentPairs (xs : List Nat) : List (Nat × Nat) :=
  xs.zip xs.tail

/-- Embeds `utils.count_bit_flips`.  Bodies are cast to `uint64`
(`np.array(bodies, dtype=np.uint64)` wraps modulo `2^64`); after the two size
validations, for each bit position the 0/1 series `(bodies >> bit) & 1` is
built and the number of adjacent transitions `bits[1:] ^ bits[:-1]` summed. -/
def count_bit_flips (bodies : List Nat) (size : Nat) : Except String (List Nat) :=
  let bodiesU := bodies.map (· % 2 ^ 64)
  if size < 1 then .error "Bodies must consist of at least one bit."
  else if size > 64 then .error "Bodies must consist of 64 bits at most."
  else .ok ((List.range size).map (fun bit =>
    ((adjacentPairs bodiesU).map
      (fun p => (p.2 >>> bit) &&& 1 ^^^ (p.1 >>> bit) &&& 1)).sum))

/-- Mean of a list of rationals (`0` for the empty list, matching the
`0 / 0 = 0` convention of `ℚ`; all uses are on nonempty lists). -/
def meanQ (xs : List ℚ) : ℚ :=
  xs.sum / xs.length

/-- Population variance of a list of rationals, as used by `np.corrcoef`
to decide definedness: the correlation of a pair is NaN exactly when one of
the two series has zero variance. -/
def varQ (xs : List ℚ) : ℚ :=
  (xs.map (fun x => (x - meanQ xs) ^ 2)).sum / xs.length

/-- Covariance of two equally long lists of rationals. -/
def covQ (xs ys : List ℚ) : ℚ :=
  ((xs.zip ys).map (fun p => (p.1 - meanQ xs) * (p.2 - meanQ ys))).sum / xs.length

/-- Embeds the scalar `np.corrcoef(xs, ys)[1][0]` of `utils.py`.  The float
NaN produced when either series has zero variance is modelled as `none`.
A defined Pearson coefficient `r = cov / (sqrt (var xs) * sqrt (var ys))` is
irrational in general; it is modelled exactly inside `ℚ` through the
strictly monotone bijection `r ↦ r * |r|`, i.e. the stored value is
`cov * |cov| / (var xs * var ys)`, which determines `r` uniquely. -/
def corrcoefQ (xs ys : List ℚ) : Option ℚ :=
  if varQ xs = 0 ∨ varQ ys = 0 then none
  else some (covQ xs ys * |covQ xs ys| / (varQ xs * varQ ys))

/-- Full convolution with a window of ones of length `w`, modelling
`np.convolve(b_t[row], v_t[row])` where both operands are `dtype=np.uint8`:
the result is again `uint8`, so every output element is the window sum
reduced mod 256.  The result has length `xs.length + w - 1` and entry `j`
is `(sum of the xs i with i ≤ j < i + w) % 256` — the window sum can
exceed 255 once the window length `w` exceeds 255, which is reachable
(`convolution_length = max(min(n, 65536) // 200, 64)` is above 255 for
`n ≥ 51200` bodies), and then the stored series wraps.
(`np.convolve` raises a `ValueError` on an empty input series; that case
is handled by the caller below, not by this function.) -/
def convolveOnes (xs : List Nat) (w : Nat) : List Nat :=
  (List.range (xs.length + w - 1)).map (fun j =>
    ((List.range xs.length).map
      (fun i => if i ≤ j ∧ j < i + w then xs.getD i 0 else 0)).sum % 256)

/-- The capped number of samples, `bcot_max_samples = 64 * 1024`. -/
def bcotMaxSamples : Nat := 64 * 1024

/-- The boxcar window length of `calculate_bit_flip_correlation`:
`max(min(len(bodies), bcot_max_samples) // 200, 64)`. -/
def convolutionLength (numBodies : Nat) : Nat :=
  max (min numBodies bcotMaxSamples / 200) 64

/-- The smoothed series `c_t[row]` of `utils.calculate_bit_flip_correlation`:
bodies are cast to `uint64`, truncated to `bcot_max_samples`, the adjacent
XOR series `b = bodies[1:] ^ bodies[:-1]` is formed, bit `row` is extracted
(`(b >> row) & 1`, a `uint8` series) and convolved with a `uint8` window of
ones — so the stored smoothed values are window sums mod 256 (see
`convolveOnes`). -/
def smoothedSeries (bodies : List Nat) (row : Nat) : List Nat :=
  let bodiesU := (bodies.map (· % 2 ^ 64)).take bcotMaxSamples
  let b := (adjacentPairs bodiesU).map (fun p => p.1 ^^^ p.2)
  convolveOnes (b.map (fun x => (x >>> row) &&& 1)) (convolutionLength bodies.length)

/-- Embeds `utils.calculate_bit_flip_correlation`.  After the two size
validations the code builds `c_t` by convolving each bit series of
`b = bodies[1:] ^ bodies[:-1]`; with fewer than two bodies `b` is empty
and `np.convolve` raises `ValueError: a cannot be empty`, which escapes
the function (no array is returned) — modelled by the third branch.
Otherwise entry `row` of the result is the correlation coefficient of the
smoothed series of bits `row` and `row + 1` (see `corrcoefQ` for the NaN
and value modelling). -/
def calculate_bit_flip_correlation (bodies : List Nat) (size : Nat) :
    Except String (List (Option ℚ)) :=
  if size < 1 then .error "Bodies must consist of at least one bit."
  else if size > 64 then .error "Bodies must consist of 64 bits at most."
  else if bodies.length ≤ 1 then .error "a cannot be empty"
  else .ok ((List.range (size - 1)).map (fun row =>
    corrcoefQ ((smoothedSeries bodies row).map (Nat.cast : Nat → ℚ))
      ((smoothedSeries bodies (row + 1)).map (Nat.cast : Nat → ℚ))))

/-! ## AnalysisCoordinator: `analyze_can_view.py`

The orchestration of `AnalyzeCANView` is modelled as a transition system
whose events are interleavings of the consumer operations
(`update_packets` with a CAN packet = focus, `update_packets` with a
non-CAN packet = unfocus/cancel, the rerun button callback) with the
asynchronous steps of a worker process (posting its result to its queue,
exiting) and of the supervising thread of `_wait_for_analysis`
(the `join` / `get` / cache commit).  Packet payload snapshots are
abstracted to `List Nat`, analysis results to a tagged variant. -/

/-- The focus snapshot `Data(focused_packet, packets)`: the focused
identifier together with the filtered packet list for that identifier. -/
structure AData where
  identifier : Nat
  packets : List Nat
deriving DecidableEq

/-- The tagged outcome posted by a worker: `Success(value)` or
`Error(reason)` (reasons abstracted to a code). -/
inductive AResult where
  | success (value : Nat)
  | failure (reason : Nat)
deriving DecidableEq

/-- One analysis job: the worker process started by `_start_analysis`
together with its result queue and its supervising thread.
`data` is the `_current_data` captured at start (`none` models a rerun with
no current focus); `alive` is `Process.is_alive`; `posted` is the content
of the job's one-shot result queue; `waiterDone` records whether the
supervising `_wait_for_analysis` thread has run to completion. -/
structure AJob where
  jobId : Nat
  data : Option AData
  alive : Bool
  posted : Option AResult
  waiterDone : Bool
deriving DecidableEq

/-- A `_result_cache` entry: `AnalysisResult(packets, result)`, tagged in
the model with the id of the job that committed it. -/
structure ACacheEntry where
  jobId : Nat
  packets : List Nat
  result : AResult
deriving DecidableEq

/-- The state of one `AnalyzeCANView` instance: `_current_data`,
`_process` (as the id of the most recently started job), every job ever
started (needed because superseded workers and their supervising threads
keep running), and `_result_cache` as an association list. -/
structure CoordState where
  currentData : Option AData
  procSlot : Option Nat
  jobs : List AJob
  cache : List (Nat × ACacheEntry)
  nextJobId : Nat
deriving DecidableEq

/-- The initial state built by `__init__`. -/
def initState : CoordState :=
  ⟨none, none, [], [], 0⟩

/-- `self._result_cache.get(identifier, None)`. -/
def lookupCache (cache : List (Nat × ACacheEntry)) (identifier : Nat) :
    Option ACacheEntry :=
  (cache.find? (fun p => p.1 == identifier)).map (·.2)

/-- `self._result_cache[identifier] = entry` (dict assignment replaces any
earlier entry for the identifier). -/
def putCache (cache : List (Nat × ACacheEntry)) (identifier : Nat)
    (entry : ACacheEntry) : List (Nat × ACacheEntry) :=
  (identifier, entry) :: cache.filter (fun p => p.1 != identifier)

/-- Update the jobs matching a condition (the shared shape of every job
mutation of the model: every updater leaves `jobId` unchanged). -/
def updateJobs (cond : AJob → Bool) (f : AJob → AJob) (jobs : List AJob) :
    List AJob :=
  jobs.map (fun j => if cond j then f j else j)

/-- `_abort_analysis`: if `_process` is set, terminate it forcefully and
join.  Termination kills the worker but leaves anything it already posted
in its queue. -/
def terminateSlot (s : CoordState) : CoordState :=
  match s.procSlot with
  | none => s
  | some jid =>
    let jobs2 := updateJobs (fun j => j.jobId == jid)
      (fun j => { j with alive := false }) s.jobs
    { s with jobs := jobs2 }

/-- `_start_analysis`: capture `_current_data`, abort any process in
flight, then start a fresh worker process (with an empty result queue) and
its supervising thread, and point `_process` at it. -/
def startAnalysis (s : CoordState) : CoordState :=
  let data := s.currentData
  let s1 := terminateSlot s
  { s1 with
    jobs := s1.jobs ++ [⟨s1.nextJobId, data, true, none, false⟩]
    procSlot := some s1.nextJobId
    nextJobId := s1.nextJobId + 1 }

/-- `self._analysis_running`: `_process is not None and _process.is_alive()`. -/
def analysisRunning (s : CoordState) : Bool :=
  match s.procSlot with
  | none => false
  | some jid => ((s.jobs.find? (fun j => j.jobId == jid)).map (·.alive)).getD false

/-- The events whose interleavings form the executions of the system. -/
inductive CoordEvent where
  /-- `update_packets` with a CAN packet: focus the identifier with the
  given filtered snapshot. -/
  | focus (identifier : Nat) (packets : List Nat)
  /-- `update_packets` with a non-CAN packet: abort and clear the focus. -/
  | unfocus
  /-- The rerun-analysis button callback. -/
  | rerun
  /-- The worker process of the given job computes its outcome and posts it
  to its result queue (`result_queue.put`).  A worker whose captured data
  is `none` faults on `data.focused_packet` and posts an `Error`. -/
  | post (jobId : Nat) (result : AResult)
  /-- The worker process of the given job exits normally (it has posted). -/
  | procExit (jobId : Nat)
  /-- The supervising `_wait_for_analysis` thread of the given job resumes
  after its `join` (the joined process is dead), drains the queue and
  commits to `_result_cache`; a thread whose captured data is `none`
  faults on `data.focused_packet` before reading the queue. -/
  | waiter (jobId : Nat)
deriving DecidableEq

/-- One atomic step of the interleaving semantics.  Events whose enabling
condition does not hold (e.g. a post by a dead worker) leave the state
unchanged. -/
def applyEvent (s : CoordState) : CoordEvent → CoordState
  | .focus identifier packets =>
    let s1 := { s with currentData := some ⟨identifier, packets⟩ }
    if (lookupCache s1.cache identifier).isNone then startAnalysis s1 else s1
  | .unfocus => { terminateSlot s with currentData := none }
  | .rerun => if analysisRunning s then s else startAnalysis s
  | .post jid r =>
    let jobs2 := updateJobs (fun j => j.jobId == jid && j.alive && j.posted.isNone)
      (fun j => { j with posted := some (if j.data.isNone then .failure 0 else r) })
      s.jobs
    { s with jobs := jobs2 }
  | .procExit jid =>
    let jobs2 := updateJobs (fun j => j.jobId == jid && j.alive && j.posted.isSome)
      (fun j => { j with alive := false }) s.jobs
    { s with jobs := jobs2 }
  | .waiter jid =>
    match s.jobs.find? (fun j => j.jobId == jid) with
    | none => s
    | some j =>
      if j.alive || j.waiterDone then s
      else
        let jobs2 := updateJobs (fun j2 => j2.jobId == jid)
          (fun j2 => { j2 with waiterDone := true }) s.jobs
        let s1 := { s with jobs := jobs2 }
        match j.data, j.posted with
        | some d, some r =>
          { s1 with cache := putCache s1.cache d.identifier ⟨jid, d.packets, r⟩ }
        | _, _ => s1

/-- Run a sequence of events from a state. -/
def runEvents (s : CoordState) (es : List CoordEvent) : CoordState :=
  es.foldl applyEvent s

/-- Number of jobs whose worker process is currently alive. -/
def aliveJobs (s : CoordState) : Nat :=
  (s.jobs.filter (·.alive)).length

/-- The status shown by `_update_views` for the current focus. -/
inductive AStatus where
  | noPacket
  | running
  | unknown
  | done (obsolete : Bool)
  | failed (obsolete : Bool)
deriving DecidableEq

/-- Embeds the status-text logic of `_update_views`: no CAN packet
selected / analysis running / no cache entry / Done or Failed with the
obsolete flag (`cached_result.packets != current_data.packets`). -/
def statusOf (s : CoordState) : AStatus :=
  match s.currentData with
  | none => .noPacket
  | some d =>
    if analysisRunning s then .running
    else
      match lookupCache s.cache d.identifier with
      | none => .unknown
      | some e =>
        match e.result with
        | .success _ => .done (e.packets != d.packets)
        | .failure _ => .failed (e.packets != d.packets)

/-- The state invariant of the coordinator model: job ids are distinct and
below the allocator; a live worker is always the one `_process` points to;
and every `_result_cache` entry was committed by a job that actually posted
that result for that focus data. -/
structure Inv (s : CoordState) : Prop where
  nodup : (s.jobs.map (fun j => j.jobId)).Nodup
  lt_next : ∀ j ∈ s.jobs, j.jobId < s.nextJobId
  alive_slot : ∀ j ∈ s.jobs, j.alive = true → s.procSlot = some j.jobId
  cache_sound : ∀ p ∈ s.cache, ∃ j ∈ s.jobs, j.jobId = p.2.jobId ∧
    j.posted = some p.2.result ∧
    ∃ d, j.data = some d ∧ d.identifier = p.1 ∧ d.packets = p.2.packets

/-- The job `jid` was cancelled before it could post its result: its worker
is dead and its result queue empty. -/
def deadUnposted (s : CoordState) (jid : Nat) : Prop :=
  ∃ j ∈ s.jobs, j.jobId = jid ∧ j.alive = false ∧ j.posted = none

/-! ## The worker body `_run_analysis` -/

/-- One CAN packet as `_run_analysis` sees it: its `data` payload bytes and
its declared `length` field. -/
structure CanPacket where
  identifier : Nat
  data : List Nat
  length : Nat
deriving DecidableEq

/-- The focus snapshot passed to the worker, with real packets. -/
structure WData where
  focusedIdentifier : Nat
  packets : List CanPacket
deriving DecidableEq

/-- `struct.unpack("<Q", packet.data.ljust(8, b"\x00"))[0]`: the payload
padded with zero bytes to 8 bytes and packed little-endian into a `uint64`. -/
def packLittleEndian (bytes : List Nat) : Nat :=
  ((bytes.take 8).zip (List.range 8)).foldl
    (fun acc p => acc + p.1 % 256 * 256 ^ p.2) 0

/-- The exception raised (and wrapped into `Error`) by the worker. -/
inductive WorkerError where
  /-- The guard `len(set(packet.length for packet in packets)) != 1`:
  the packet sizes for the identifier differ (or there are no packets).
  The raised message is
  `Cant process identifier {identifier}, whose packet sizes differ.` -/
  | sizesDiffer (identifier : Nat)
  /-- An exception escaping the external `revdbc.analyze_identifier`. -/
  | analysisFault (code : Nat)
deriving DecidableEq

/-- The outcome a worker posts to its queue. -/
inductive WorkerOutcome where
  | success (value : Nat)
  | failure (reason : WorkerError)
deriving DecidableEq

/-- Embeds the body of `AnalyzeCANView._run_analysis` (the code inside the
`try`, whose raised exceptions the `except` wraps into `Error`).  The
opaque external collaborator `revdbc.analyze_identifier` is a parameter:
it receives the identifier, the packed bodies and the common size, and
either returns a value or raises. -/
def run_analysis (analyze : Nat → List Nat → Nat → Except Nat Nat)
    (data : WData) : WorkerOutcome :=
  let identifier := data.focusedIdentifier
  let bodies := data.packets.map (fun p => packLittleEndian p.data)
  let sizes := (data.packets.map (·.length)).dedup
  if sizes.length != 1 then .failure (.sizesDiffer identifier)
  else
    match analyze identifier bodies (sizes.headD 0) with
    | .ok v => .success v
    | .error e => .failure (.analysisFault e)

/-! ## The save action `_save` -/

/-- A filesystem: the existing regular files with their contents, and the
existing directories. -/
structure FileSystem where
  files : List (String × String)
  dirs : List String
deriving DecidableEq

/-- The notification `_save` emits to the caller. -/
inductive SaveNote where
  /-- `No message to be saved.` (`_get_message()` returned `None`). -/
  | noMessageToSave
  /-- `File written.` -/
  | fileWritten
  /-- `Saving failed: {e}`, here raised by `open(save_path, "x")` on an
  existing file (`FileExistsError`) or by the dump collaborator. -/
  | savingFailed
deriving DecidableEq

/-- `open(path, "x")` then `dump_file`: `os.makedirs(dirname, exist_ok=True)`
first creates missing parent directories; the create-exclusive open fails
if the file already exists; otherwise the file is created empty and the
dumped schema written to it.  Embeds `AnalyzeCANView._save`, with the path
already resolved (`abspath(expandvars(expanduser(...)))`), the schema dump
collaborator and the `os.path.dirname` of the target as parameters, and an
arbitrary analysis state `st` threaded through unchanged, making explicit
that `_save` reads but never writes the analysis state. -/
def save {σ M : Type} (dirnameOf : String → String) (dump : M → String)
    (st : σ) (fs : FileSystem) (savePath : String) (message : Option M) :
    FileSystem × σ × SaveNote :=
  match message with
  | none => (fs, st, .noMessageToSave)
  | some m =>
    let d := dirnameOf savePath
    let fs1 := { fs with dirs := if d ∈ fs.dirs then fs.dirs else d :: fs.dirs }
    if (fs1.files.find? (fun p => p.1 == savePath)).isSome then
      (fs1, st, .savingFailed)
    else
      (( { fs1 with files := (savePath, dump m) ::
            fs1.files.filter (fun p => p.1 != savePath) } ), st, .fileWritten)

/-! ## LayoutRenderer: `message_layout_string.py` -/

/-- `cantools` signal byte order. -/
inductive ByteOrder where
  | big
  | little
deriving DecidableEq

/-- The part of a `cantools` `Signal` the renderer reads: `signal.start`,
`signal.length` and `signal.byte_order`. -/
structure CanSignal where
  name : String
  start : Nat
  length : Nat
  byte_order : ByteOrder
deriving DecidableEq

/-- The part of a `cantools` `Message` the renderer reads: `message.length`
(in bytes) and the ordered `message.signals`. -/
structure CanMessage where
  length : Nat
  signals : List CanSignal
deriving DecidableEq

/-- `cantools.database.utils.start_bit`: for a big-endian signal
`8 * (start // 8) + (7 - start % 8)`, for a little-endian signal `start`. -/
def start_bit (s : CanSignal) : Nat :=
  match s.byte_order with
  | .big => 8 * (s.start / 8) + (7 - s.start % 8)
  | .little => s.start

/-- `get_signal_letter_mapping`: the letters assigned to the signals in
declaration order, `chr(ord('a') + i)` for the signal at position `i`.
(The `cantools` `Signal` objects are distinct dict keys, so the mapping is
positional.)  The concatenation of these letters is `all_signal_letters`. -/
def signalLetters (m : CanMessage) : List Char :=
  (List.range m.signals.length).map (fun i => Char.ofNat (97 + i))

/-- Character-level `rjust`. -/
def rjustChars (s : List Char) (w : Nat) : List Char :=
  List.replicate (w - s.length) ' ' ++ s

/-- The chunks `l[i:i+24]` for `i = 0, 24, 48, ...`. -/
def chunk24 (l : List Char) : List (List Char) :=
  (List.range ((l.length + 23) / 24)).map (fun i => (l.drop (24 * i)).take 24)

/-- `''.join(formatted[i:i + 24][::-1] for i in range(0, len(formatted), 24))`:
every 24-character chunk reversed in place. -/
def chunkRev24 (l : List Char) : List Char :=
  ((chunk24 l).map List.reverse).flatten

/-- `format_big`: for every big-endian signal, in order,
`start_bit(signal) * '   '` then a head `<`, `3 * length - 2` fill
characters (`=` if the signal is highlighted, else `-`) and the tail
letter. -/
def format_big (m : CanMessage) (highlight : Option Char) : List (List Char) :=
  (m.signals.zip (signalLetters m)).filterMap (fun sl =>
    if sl.1.byte_order = .big then
      let dash := if highlight = some sl.2 then '=' else '-'
      some (List.replicate (start_bit sl.1 * 3) ' ' ++
        '<' :: (List.replicate (3 * sl.1.length - 2) dash ++ [sl.2]))
    else none)

/-- `format_little`: for every little-endian signal, in order, the marker
string built start-to-end (letter first, fill, trailing `<`), padded to the
end of its last byte, then every 24-character chunk reversed. -/
def format_little (m : CanMessage) (highlight : Option Char) : List (List Char) :=
  (m.signals.zip (signalLetters m)).filterMap (fun sl =>
    if sl.1.byte_order = .little then
      let dash := if highlight = some sl.2 then '=' else '-'
      let base := List.replicate (sl.1.start * 3) ' ' ++
        sl.2 :: (List.replicate (3 * sl.1.length - 2) dash ++ ['<'])
      let e := sl.1.start + sl.1.length
      let padded := if e % 8 != 0 then base ++ List.replicate ((8 - e % 8) * 3) ' '
        else base
      some (chunkRev24 padded)
    else none)

/-- The signal lines `format_big() + format_little()`. -/
def signalLines (m : CanMessage) (highlight : Option Char) : List (List Char) :=
  format_big m highlight ++ format_little m highlight

/-- The zero-padding of the signal lines to a common length rounded up to
a multiple of 24 (a no-op on the empty list, as in the source). -/
def padSignals (sigs : List (List Char)) : List (List Char) :=
  match sigs with
  | [] => []
  | _ :: _ =>
    let len0 := (sigs.map (·.length)).foldl max 0
    let len1 := if len0 % 24 != 0 then len0 + (24 - len0 % 24) else len0
    sigs.map (fun s => s ++ List.replicate (len1 - s.length) ' ')

/-- The union character of one column: count head markers, fill markers
and tail letters across the signal rows; more than one marker is the
overlap `X`, exactly one copies the non-blank character through, none is a
blank. -/
def unionChar (letters : List Char) (column : List Char) : Char :=
  let head := column.count '<'
  let dash := column.count '-' + column.count '='
  let tail := (letters.map (fun c => column.count c)).sum
  if head + dash + tail > 1 then 'X'
  else
    match column.filter (fun c => c != ' ') with
    | [] => ' '
    | c :: _ => c

/-- The signals-union line: `unionChar` applied to every column of
`zip(*signals)` (the padded rows all share the length of the first). -/
def signalsUnionOf (letters : List Char) (sigs : List (List Char)) : List Char :=
  match sigs with
  | [] => []
  | s0 :: _ =>
    (List.range s0.length).map (fun i => unionChar letters (sigs.map (fun s => s.getD i ' ')))

/-- The union line of a message under a highlight. -/
def signalsUnion (m : CanMessage) (highlight : Option Char) : List Char :=
  signalsUnionOf (signalLetters m) (padSignals (signalLines m highlight))

/-- The byte lines: the union line split into 24-character rows, extended
with blank rows up to `message.length`. -/
def byteLinesOf (messageLength : Nat) (letters : List Char)
    (sigs : List (List Char)) : List (List Char) :=
  let u := signalsUnionOf letters (padSignals sigs)
  let bl := chunk24 u
  bl ++ List.replicate (messageLength - bl.length) (List.replicate 24 ' ')

/-- The byte lines of a message under a highlight. -/
def byteLines (m : CanMessage) (highlight : Option Char) : List (List Char) :=
  byteLinesOf m.length (signalLetters m) (signalLines m highlight)

/-- The bit-separator character placed before a 3-character bit triple,
from the triple head and the previous triple tail (`prev_byte`). -/
def sepChar (letters : List Char) (prevByte : Option Char) (c : Char) : Char :=
  if c = ' ' ∨ c = '<' ∨ c = '>' ∨ c ∈ letters then '|'
  else if c = 'X' then
    if prevByte = some 'X' then 'X'
    else if prevByte = some '-' then '-'
    else if prevByte = some '=' then '='
    else '|'
  else if c = '=' then '='
  else '-'

/-- One fold step of the separator insertion: the accumulator carries the
line built so far, the previous triple tail and whether this is the first
triple (which always gets `|`). -/
def sepLineStep (letters : List Char) (acc : List Char × Option Char × Bool)
    (triple : List Char) : List Char × Option Char × Bool :=
  let sep := if acc.2.2 then '|' else sepChar letters acc.2.1 (triple.getD 0 ' ')
  (acc.1 ++ sep :: triple, some (triple.getD 2 ' '), false)

/-- Insert the bit separators into one 24-character byte line: the 8 bit
triples `byte_line[i:i+3]` each prefixed by their separator, a closing `|`. -/
def sepLine (letters : List Char) (byteLine : List Char) : List Char :=
  let triples := (List.range 8).map (fun k => (byteLine.drop (3 * k)).take 3)
  (triples.foldl (sepLineStep letters) ([], none, true)).1 ++ ['|']

/-- The horizontal `+---+` row. -/
def plusRow : List Char :=
  "+---+---+---+---+---+---+---+---+".toList

/-- `add_horizontal_lines`: every byte row followed by a padded `+---+` row. -/
def addHorizontalLines (nw : Nat) (lines : List (List Char)) : List (List Char) :=
  lines.flatMap (fun l => [l, List.replicate nw ' ' ++ plusRow])

/-- `add_header_lines`: the bit-index header and the first `+---+` row. -/
def addHeaderLines (nw : Nat) (lines : List (List Char)) : List (List Char) :=
  (rjustChars "Bit".toList nw ++ "  7   6   5   4   3   2   1   0".toList) ::
    (List.replicate nw ' ' ++ plusRow) :: lines

/-- `add_y_axis_name`: pad short outputs to at least 5 matrix lines,
compute the vertical `Byte` label start index with Python floor division
(`Int.fdiv`), and prefix every line with its 2-character axis column
(`zip` truncates, as in the source). -/
def addYAxisName (lines : List (List Char)) : List (List Char) :=
  let n : Int := (lines.length : Int) - 3
  let lines2 := if n < 5 then lines ++ List.replicate (5 - n).toNat (List.replicate 5 ' ')
    else lines
  let startIndex : Int := max (4 + ((n - 4).fdiv 2 - 1)) 0
  let axis := List.replicate startIndex.toNat [' ', ' '] ++
    [[' ', 'B'], [' ', 'y'], [' ', 't'], [' ', 'e']] ++
    List.replicate (((lines2.length : Int) - startIndex - 4).toNat) [' ', ' ']
  List.zipWith (fun a l => a ++ l) axis lines2

/-- `line.rstrip()` (only spaces occur in these lines). -/
def rstrip (l : List Char) : List Char :=
  (l.reverse.dropWhile (fun c => c = ' ')).reverse

/-- Everything of `message_layout_string` downstream of the signal marker
lines: byte lines, bit separators, numbering, horizontal rules,
header, vertical axis, trailing-whitespace strip.  The highlight enters
only through the signal lines argument. -/
def renderLines (m : CanMessage) (sigs : List (List Char)) : List (List Char) :=
  let letters := signalLetters m
  let bl := byteLinesOf m.length letters sigs
  let nw := (toString bl.length).length + 4
  let numbered := (bl.map (sepLine letters)).enum.map
    (fun p => rjustChars (toString p.1).toList (nw - 1) ++ ' ' :: p.2)
  (addYAxisName (addHeaderLines nw (addHorizontalLines nw numbered))).map rstrip

/-- Embeds `message_layout_string`: the rendered ASCII art, lines joined
with newlines. -/
def message_layout_string (m : CanMessage) (highlight : Option Char) : String :=
  String.intercalate "\n" ((renderLines m (signalLines m highlight)).map String.mk)

/-- A one-byte message carrying a single big-endian signal spanning the
whole byte (in `cantools` convention the big-endian start bit 7 is the most
significant bit of byte 0, so the signal covers bits 7..0). -/
def oneByteMessage : CanMessage :=
  ⟨1, [⟨"sig", 7, 8, .big⟩]⟩

/-! ## Theorems: BitStatistics -/

theorem shiftRight_and_one (x b : Nat) :
    x >>> b &&& 1 = if x.testBit b then 1 else 0 := by
  rw [Nat.and_one_is_mod, Nat.testBit_to_div_mod, Nat.shiftRight_eq_div_pow]
  rcases Nat.mod_two_eq_zero_or_one (x / 2 ^ b) with h | h <;> simp [h]

theorem sum_boolIndicator {α : Type} (p : α → Bool) (l : List α) :
    (l.map (fun a => if p a then 1 else 0)).sum = l.countP p := by
  induction l with
  | nil => rfl
  | cons a t ih =>
    by_cases h : p a <;>
      simp [List.countP_cons, h, ih, Nat.add_comm]

theorem bitFlip_indicator (b : Nat) (hb : b < 64) (x y : Nat) :
    (y % 2 ^ 64) >>> b &&& 1 ^^^ (x % 2 ^ 64) >>> b &&& 1 =
      if (x ^^^ y).testBit b then 1 else 0 := by
  rw [shiftRight_and_one, shiftRight_and_one, Nat.testBit_mod_two_pow,
    Nat.testBit_mod_two_pow, Nat.testBit_xor]
  rcases hx : x.testBit b <;> rcases hy : y.testBit b <;> simp [hb]

/-- **C5.** For every list of values and every `bitWidth` with
`1 ≤ bitWidth ≤ 64`, `count_bit_flips` succeeds with an array of length
`bitWidth` whose entry at position `b` is the number of adjacent pairs
`(values[i], values[i+1])` whose XOR has bit `b` set; in particular
`count_bit_flips [0,1,3,2] 2 = [2, 1]`. -/
theorem count_bit_flips_spec (values : List Nat) (size : Nat)
    (h1 : 1 ≤ size) (h64 : size ≤ 64) :
    ∃ l, count_bit_flips values size = .ok l ∧ l.length = size ∧
      (∀ b, b < size →
        l.getD b 0 = (values.zip values.tail).countP
          (fun p => (p.1 ^^^ p.2).testBit b)) ∧
      count_bit_flips [0, 1, 3, 2] 2 = .ok [2, 1] := by
  have hlt : ¬size < 1 := by omega
  have hgt : ¬size > 64 := by omega
  have heq : count_bit_flips values size = .ok ((List.range size).map (fun bit =>
      ((adjacentPairs (values.map (· % 2 ^ 64))).map
        (fun p => p.2 >>> bit &&& 1 ^^^ p.1 >>> bit &&& 1)).sum)) := by
    simp only [count_bit_flips, if_neg hlt, if_neg hgt]
  refine ⟨_, heq, by simp, ?_, by rfl⟩
  intro b hb
  have hb64 : b < 64 := lt_of_lt_of_le hb h64
  have hmap : adjacentPairs (values.map (· % 2 ^ 64)) =
      (values.zip values.tail).map (Prod.map (· % 2 ^ 64) (· % 2 ^ 64)) := by
    simp only [adjacentPairs, ← List.map_tail, List.zip_map]
  rw [List.getD_eq_getElem?_getD, List.getElem?_map, List.getElem?_range hb]
  simp only [Option.map_some, Option.map_some', Option.getD_some, hmap,
    List.map_map]
  have hpt : ∀ p ∈ values.zip values.tail,
      ((fun q : Nat × Nat => q.2 >>> b &&& 1 ^^^ q.1 >>> b &&& 1) ∘
        Prod.map (· % 2 ^ 64) (· % 2 ^ 64)) p =
        (fun q : Nat × Nat => if (q.1 ^^^ q.2).testBit b then 1 else 0) p := by
    intro p _
    exact bitFlip_indicator b hb64 p.1 p.2
  rw [List.map_congr_left hpt,
    sum_boolIndicator (fun p : Nat × Nat => (p.1 ^^^ p.2).testBit b)]

/-- Witness for C5 at the worked example of the specification. -/
theorem count_bit_flips_spec_witness :
    (1 ≤ 2 ∧ 2 ≤ 64) ∧
      (∃ l, count_bit_flips [0, 1, 3, 2] 2 = .ok l ∧ l.length = 2 ∧
        (∀ b, b < 2 →
          l.getD b 0 = (([0, 1, 3, 2] : List Nat).zip
            ([0, 1, 3, 2] : List Nat).tail).countP
            (fun p => (p.1 ^^^ p.2).testBit b)) ∧
        count_bit_flips [0, 1, 3, 2] 2 = .ok [2, 1]) :=
  ⟨by decide, count_bit_flips_spec [0, 1, 3, 2] 2 (by decide) (by decide)⟩

/-! ## Theorems: the worker body and the save action -/

/-- **C7.** A job whose packets do not all share the same declared payload
length yields the sizes-differ `Error` for every possible external
analysis function, i.e. without the external function being invoked
(the result does not depend on it). -/
theorem run_analysis_sizes_differ (data : WData)
    (h : ∃ p ∈ data.packets, ∃ q ∈ data.packets, p.length ≠ q.length) :
    ∀ analyze, run_analysis analyze data =
      .failure (.sizesDiffer data.focusedIdentifier) := by
  intro analyze
  obtain ⟨p, hp, q, hq, hne⟩ := h
  have hp1 : p.length ∈ (data.packets.map (·.length)).dedup :=
    List.mem_dedup.2 (List.mem_map.2 ⟨p, hp, rfl⟩)
  have hq1 : q.length ∈ (data.packets.map (·.length)).dedup :=
    List.mem_dedup.2 (List.mem_map.2 ⟨q, hq, rfl⟩)
  have hlen : (data.packets.map (·.length)).dedup.length ≠ 1 := by
    intro h1
    obtain ⟨a, ha⟩ := List.length_eq_one.1 h1
    rw [ha] at hp1 hq1
    simp only [List.mem_singleton] at hp1 hq1
    exact hne (hp1.trans hq1.symm)
  have hcond : ((data.packets.map (·.length)).dedup.length != 1) = true :=
    bne_iff_ne.2 hlen
  simp only [run_analysis, hcond, if_true]

/-- Witness for C7: two packets of lengths 1 and 2, and an arbitrary
analysis function which is indeed not consulted. -/
theorem run_analysis_sizes_differ_witness :
    (∃ p ∈ (⟨5, [⟨5, [0], 1⟩, ⟨5, [0, 0], 2⟩]⟩ : WData).packets,
      ∃ q ∈ (⟨5, [⟨5, [0], 1⟩, ⟨5, [0, 0], 2⟩]⟩ : WData).packets,
        p.length ≠ q.length) ∧
    run_analysis (fun _ _ _ => .ok 0) ⟨5, [⟨5, [0], 1⟩, ⟨5, [0, 0], 2⟩]⟩ =
      .failure (.sizesDiffer 5) :=
  ⟨by decide,
    run_analysis_sizes_differ ⟨5, [⟨5, [0], 1⟩, ⟨5, [0, 0], 2⟩]⟩ (by decide)
      (fun _ _ _ => .ok 0)⟩

/-- **C8.** If the resolved target file already exists, the save action
reports the save failure, writes nothing to the filesystem files (the
create-exclusive `open` fails before any write), and leaves the analysis
state unchanged. -/
theorem save_existing_file {σ M : Type} (dirnameOf : String → String)
    (dump : M → String) (st : σ) (fs : FileSystem) (savePath : String)
    (m : M) (h : ∃ c, (savePath, c) ∈ fs.files) :
    (save dirnameOf dump st fs savePath (some m)).1.files = fs.files ∧
    (save dirnameOf dump st fs savePath (some m)).2.1 = st ∧
    (save dirnameOf dump st fs savePath (some m)).2.2 = .savingFailed := by
  obtain ⟨c, hc⟩ := h
  have hfind : ((fs.files.find? (fun p => p.1 == savePath)).isSome) = true := by
    refine List.find?_isSome.2 ⟨(savePath, c), hc, ?_⟩
    simp
  simp [save, hfind]

/-- Witness for C8 on a one-file filesystem. -/
theorem save_existing_file_witness :
    (∃ c, (("p", c) : String × String) ∈
      (⟨[("p", "old")], []⟩ : FileSystem).files) ∧
    ((save (fun _ => "d") (fun n : Nat => toString n) 0
        ⟨[("p", "old")], []⟩ "p" (some 3)).1.files =
      (⟨[("p", "old")], []⟩ : FileSystem).files ∧
    (save (fun _ => "d") (fun n : Nat => toString n) 0
        ⟨[("p", "old")], []⟩ "p" (some 3)).2.1 = 0 ∧
    (save (fun _ => "d") (fun n : Nat => toString n) 0
        ⟨[("p", "old")], []⟩ "p" (some 3)).2.2 = .savingFailed) :=
  ⟨⟨"old", by decide⟩,
    save_existing_file (fun _ => "d") (fun n : Nat => toString n) 0
      ⟨[("p", "old")], []⟩ "p" 3 ⟨"old", by decide⟩⟩

/-! ## Theorems: coordinator invariants -/

theorem updateJobs_map_jobId (cond : AJob → Bool) (f : AJob → AJob)
    (hf : ∀ j, (f j).jobId = j.jobId) (jobs : List AJob) :
    (updateJobs cond f jobs).map (fun j => j.jobId) =
      jobs.map (fun j => j.jobId) := by
  simp only [updateJobs, List.map_map]
  refine List.map_congr_left ?_
  intro j _
  by_cases h : cond j = true <;> simp [h, hf]

theorem witness_updateJobs (cond : AJob → Bool) (f : AJob → AJob)
    (jobs : List AJob) (j : AJob) (hj : j ∈ jobs)
    (hkeep : cond j = true →
      (f j).jobId = j.jobId ∧ (f j).posted = j.posted ∧ (f j).data = j.data) :
    ∃ j2 ∈ updateJobs cond f jobs,
      j2.jobId = j.jobId ∧ j2.posted = j.posted ∧ j2.data = j.data := by
  by_cases hc : cond j = true
  · exact ⟨f j, List.mem_map.2 ⟨j, hj, by rw [if_pos hc]⟩, hkeep hc⟩
  · exact ⟨j, List.mem_map.2 ⟨j, hj, by rw [if_neg hc]⟩, rfl, rfl, rfl⟩

theorem dead_witness_updateJobs (cond : AJob → Bool) (f : AJob → AJob)
    (jobs : List AJob) (j : AJob) (hj : j ∈ jobs)
    (hkeep : cond j = true →
      (f j).jobId = j.jobId ∧ (f j).alive = false ∧ (f j).posted = none)
    (hal : j.alive = false) (hpost : j.posted = none) :
    ∃ j2 ∈ updateJobs cond f jobs,
      j2.jobId = j.jobId ∧ j2.alive = false ∧ j2.posted = none := by
  by_cases hc : cond j = true
  · exact ⟨f j, List.mem_map.2 ⟨j, hj, by rw [if_pos hc]⟩, hkeep hc⟩
  · exact ⟨j, List.mem_map.2 ⟨j, hj, by rw [if_neg hc]⟩, rfl, hal, hpost⟩

theorem alive_slot_updateJobs {s : CoordState} (h : Inv s)
    (cond : AJob → Bool) (f : AJob → AJob)
    (hid : ∀ j, (f j).jobId = j.jobId)
    (halive : ∀ j, (f j).alive = true → j.alive = true) :
    ∀ j2 ∈ updateJobs cond f s.jobs, j2.alive = true →
      s.procSlot = some j2.jobId := by
  intro j2 hj2 ha
  obtain ⟨j, hj, rfl⟩ := List.mem_map.1 hj2
  by_cases hc : cond j = true
  · rw [if_pos hc] at ha ⊢
    rw [hid]
    exact h.alive_slot j hj (halive j ha)
  · rw [if_neg hc] at ha ⊢
    exact h.alive_slot j hj ha

theorem lt_next_of_mem_map {jobs : List AJob} {n : Nat}
    (h : ∀ j ∈ jobs, j.jobId < n) {jobs2 : List AJob}
    (hmap : jobs2.map (fun j => j.jobId) = jobs.map (fun j => j.jobId)) :
    ∀ j ∈ jobs2, j.jobId < n := by
  intro j2 hj2
  have : j2.jobId ∈ jobs.map (fun j => j.jobId) := by
    rw [← hmap]
    exact List.mem_map.2 ⟨j2, hj2, rfl⟩
  obtain ⟨j, hj, hje⟩ := List.mem_map.1 this
  rw [← hje]
  exact h j hj

theorem terminateSlot_currentData (s : CoordState) :
    (terminateSlot s).currentData = s.currentData := by
  cases h : s.procSlot <;> simp [terminateSlot, h]

theorem terminateSlot_procSlot (s : CoordState) :
    (terminateSlot s).procSlot = s.procSlot := by
  cases h : s.procSlot <;> simp [terminateSlot, h]

theorem terminateSlot_cache (s : CoordState) :
    (terminateSlot s).cache = s.cache := by
  cases h : s.procSlot <;> simp [terminateSlot, h]

theorem terminateSlot_nextJobId (s : CoordState) :
    (terminateSlot s).nextJobId = s.nextJobId := by
  cases h : s.procSlot <;> simp [terminateSlot, h]

theorem terminateSlot_map_jobId (s : CoordState) :
    (terminateSlot s).jobs.map (fun j => j.jobId) =
      s.jobs.map (fun j => j.jobId) := by
  cases h : s.procSlot with
  | none => simp [terminateSlot, h]
  | some jid =>
    simp only [terminateSlot, h]
    exact updateJobs_map_jobId (fun j => j.jobId == jid)
      (fun j => { j with alive := false }) (fun j => rfl) s.jobs

theorem terminateSlot_jobs_dead {s : CoordState} (h : Inv s) :
    ∀ j ∈ (terminateSlot s).jobs, j.alive = false := by
  intro j2 hj2
  cases hps : s.procSlot with
  | none =>
    simp only [terminateSlot, hps] at hj2
    cases ha : j2.alive with
    | false => rfl
    | true =>
      have := h.alive_slot j2 hj2 ha
      rw [hps] at this
      exact Option.noConfusion this
  | some jid =>
    simp only [terminateSlot, hps, updateJobs, List.mem_map] at hj2
    obtain ⟨j, hj, rfl⟩ := hj2
    by_cases hc : (j.jobId == jid) = true
    · rw [if_pos hc]
    · rw [if_neg hc]
      cases ha : j.alive with
      | false => rfl
      | true =>
        have h2 := h.alive_slot j hj ha
        rw [hps] at h2
        have : jid = j.jobId := Option.some.inj h2
        exact absurd (by simp [this]) hc

theorem cache_sound_terminateSlot {s : CoordState} (h : Inv s) :
    ∀ p ∈ s.cache, ∃ j ∈ (terminateSlot s).jobs, j.jobId = p.2.jobId ∧
      j.posted = some p.2.result ∧
      ∃ d, j.data = some d ∧ d.identifier = p.1 ∧ d.packets = p.2.packets := by
  intro p hp
  obtain ⟨j, hj, h1, h2, d, h3, h4, h5⟩ := h.cache_sound p hp
  cases hps : s.procSlot with
  | none =>
    refine ⟨j, ?_, h1, h2, d, h3, h4, h5⟩
    simp only [terminateSlot, hps]
    exact hj
  | some jid =>
    obtain ⟨j2, hj2, k1, k2, k3⟩ :=
      witness_updateJobs (fun j => j.jobId == jid)
        (fun j => { j with alive := false }) s.jobs j hj
        (fun _ => ⟨rfl, rfl, rfl⟩)
    refine ⟨j2, ?_, k1.trans h1, k2.trans h2, d, k3.trans h3, h4, h5⟩
    simp only [terminateSlot, hps]
    exact hj2

theorem inv_startAnalysis {s : CoordState} (h : Inv s) :
    Inv (startAnalysis s) := by
  have hdead := terminateSlot_jobs_dead h
  have hmap := terminateSlot_map_jobId s
  have hlt : ∀ j ∈ (terminateSlot s).jobs, j.jobId < s.nextJobId :=
    lt_next_of_mem_map h.lt_next hmap
  have hjobs : (startAnalysis s).jobs = (terminateSlot s).jobs ++
      [{ jobId := (terminateSlot s).nextJobId, data := s.currentData,
         alive := true, posted := none, waiterDone := false }] := rfl
  have hslot : (startAnalysis s).procSlot =
    some (terminateSlot s).nextJobId := rfl
  have hcache : (startAnalysis s).cache = s.cache := terminateSlot_cache s
  have hnext : (startAnalysis s).nextJobId =
    (terminateSlot s).nextJobId + 1 := rfl
  refine ⟨?_, ?_, ?_, ?_⟩
  · rw [hjobs, List.map_append, List.nodup_append]
    refine ⟨by rw [hmap]; exact h.nodup, by simp, ?_⟩
    intro x hx hx2
    simp only [List.map_cons, List.map_nil, List.mem_singleton] at hx2
    obtain ⟨j, hj, hje⟩ := List.mem_map.1 hx
    have hje2 : j.jobId = x := hje
    rw [terminateSlot_nextJobId] at hx2
    have := hlt j hj
    omega
  · intro j hj
    rw [hjobs] at hj
    rw [hnext, terminateSlot_nextJobId]
    rcases List.mem_append.1 hj with hj | hj
    · have := hlt j hj
      omega
    · rw [List.mem_singleton] at hj
      subst hj
      have : (terminateSlot s).nextJobId = s.nextJobId :=
        terminateSlot_nextJobId s
      simp only [this]
      omega
  · intro j hj ha
    rw [hjobs] at hj
    rw [hslot]
    rcases List.mem_append.1 hj with hj | hj
    · exact absurd ha (by simp [hdead j hj])
    · rw [List.mem_singleton] at hj
      subst hj
      rfl
  · intro p hp
    rw [hcache] at hp
    obtain ⟨j, hj, h1, h2, d, h3, h4, h5⟩ := cache_sound_terminateSlot h p hp
    rw [hjobs]
    exact ⟨j, List.mem_append_left _ hj, h1, h2, d, h3, h4, h5⟩

theorem inv_terminateSlot {s : CoordState} (h : Inv s) :
    Inv (terminateSlot s) := by
  refine ⟨?_, ?_, ?_, ?_⟩
  · rw [terminateSlot_map_jobId]
    exact h.nodup
  · rw [terminateSlot_nextJobId]
    exact lt_next_of_mem_map h.lt_next (terminateSlot_map_jobId s)
  · intro j hj ha
    exact absurd ha (by simp [terminateSlot_jobs_dead h j hj])
  · rw [terminateSlot_cache]
    exact cache_sound_terminateSlot h

theorem inv_applyEvent {s : CoordState} (h : Inv s) (e : CoordEvent) :
    Inv (applyEvent s e) := by
  cases e with
  | focus identifier packets =>
    have h1 : Inv { s with currentData := some ⟨identifier, packets⟩ } :=
      ⟨h.nodup, h.lt_next, h.alive_slot, h.cache_sound⟩
    simp only [applyEvent]
    by_cases hc :
        (lookupCache s.cache identifier).isNone = true
    · rw [if_pos hc]
      exact inv_startAnalysis h1
    · rw [if_neg hc]
      exact h1
  | unfocus =>
    have h1 := inv_terminateSlot h
    exact ⟨h1.nodup, h1.lt_next, h1.alive_slot, h1.cache_sound⟩
  | rerun =>
    simp only [applyEvent]
    by_cases hc : analysisRunning s = true
    · rw [if_pos hc]
      exact h
    · rw [if_neg hc]
      exact inv_startAnalysis h
  | post jid r =>
    simp only [applyEvent]
    refine ⟨?_, ?_, ?_, ?_⟩
    · rw [updateJobs_map_jobId
        (fun j => j.jobId == jid && j.alive && j.posted.isNone)
        (fun j =>
          { j with posted := some (if j.data.isNone then .failure 0 else r) })
        (fun j => rfl)]
      exact h.nodup
    · exact lt_next_of_mem_map h.lt_next
        (updateJobs_map_jobId
          (fun j => j.jobId == jid && j.alive && j.posted.isNone)
          (fun j =>
            { j with posted := some (if j.data.isNone then .failure 0 else r) })
          (fun j => rfl) s.jobs)
    · exact alive_slot_updateJobs h
        (fun j => j.jobId == jid && j.alive && j.posted.isNone)
        (fun j =>
          { j with posted := some (if j.data.isNone then .failure 0 else r) })
        (fun j => rfl) (fun j ha => ha)
    · intro p hp
      obtain ⟨j, hj, h1, h2, d, h3, h4, h5⟩ := h.cache_sound p hp
      obtain ⟨j2, hj2, k1, k2, k3⟩ :=
        witness_updateJobs
          (fun j => j.jobId == jid && j.alive && j.posted.isNone)
          (fun j =>
            { j with posted := some (if j.data.isNone then .failure 0 else r) })
          s.jobs j hj
          (fun hcond => by
            exfalso
            have := (Bool.and_eq_true_iff.1 hcond).2
            rw [h2] at this
            simp at this)
      exact ⟨j2, hj2, k1.trans h1, k2.trans h2, d, k3.trans h3, h4, h5⟩
  | procExit jid =>
    simp only [applyEvent]
    refine ⟨?_, ?_, ?_, ?_⟩
    · rw [updateJobs_map_jobId
        (fun j => j.jobId == jid && j.alive && j.posted.isSome)
        (fun j => { j with alive := false }) (fun j => rfl)]
      exact h.nodup
    · exact lt_next_of_mem_map h.lt_next
        (updateJobs_map_jobId
          (fun j => j.jobId == jid && j.alive && j.posted.isSome)
          (fun j => { j with alive := false }) (fun j => rfl) s.jobs)
    · refine alive_slot_updateJobs h
        (fun j => j.jobId == jid && j.alive && j.posted.isSome)
        (fun j => { j with alive := false }) (fun j => rfl) ?_
      intro j ha
      exact absurd ha (by simp)
    · intro p hp
      obtain ⟨j, hj, h1, h2, d, h3, h4, h5⟩ := h.cache_sound p hp
      obtain ⟨j2, hj2, k1, k2, k3⟩ :=
        witness_updateJobs
          (fun j => j.jobId == jid && j.alive && j.posted.isSome)
          (fun j => { j with alive := false }) s.jobs j hj
          (fun _ => ⟨rfl, rfl, rfl⟩)
      exact ⟨j2, hj2, k1.trans h1, k2.trans h2, d, k3.trans h3, h4, h5⟩
  | waiter jid =>
    cases hf : s.jobs.find? (fun j => j.jobId == jid) with
    | none =>
      simp only [applyEvent, hf]
      exact h
    | some j =>
      simp only [applyEvent, hf]
      by_cases hb : (j.alive || j.waiterDone) = true
      · rw [if_pos hb]
        exact h
      · rw [if_neg hb]
        have hnodup : ((updateJobs (fun j2 => j2.jobId == jid)
            (fun j2 => { j2 with waiterDone := true }) s.jobs).map
              (fun j => j.jobId)).Nodup := by
          rw [updateJobs_map_jobId (fun j2 => j2.jobId == jid)
            (fun j2 => { j2 with waiterDone := true }) (fun j => rfl)]
          exact h.nodup
        have hlt2 : ∀ j2 ∈ updateJobs (fun j2 => j2.jobId == jid)
            (fun j2 => { j2 with waiterDone := true }) s.jobs,
            j2.jobId < s.nextJobId :=
          lt_next_of_mem_map h.lt_next
            (updateJobs_map_jobId (fun j2 => j2.jobId == jid)
              (fun j2 => { j2 with waiterDone := true }) (fun j => rfl) s.jobs)
        have halive : ∀ j2 ∈ updateJobs (fun j2 => j2.jobId == jid)
            (fun j2 => { j2 with waiterDone := true }) s.jobs,
            j2.alive = true → s.procSlot = some j2.jobId :=
          alive_slot_updateJobs h (fun j2 => j2.jobId == jid)
            (fun j2 => { j2 with waiterDone := true }) (fun j => rfl)
            (fun j ha => ha)
        have hsound : ∀ p ∈ s.cache,
            ∃ j2 ∈ updateJobs (fun j2 => j2.jobId == jid)
              (fun j2 => { j2 with waiterDone := true }) s.jobs,
              j2.jobId = p.2.jobId ∧ j2.posted = some p.2.result ∧
              ∃ d, j2.data = some d ∧ d.identifier = p.1 ∧
                d.packets = p.2.packets := by
          intro p hp
          obtain ⟨j3, hj3, h1, h2, d, h3, h4, h5⟩ := h.cache_sound p hp
          obtain ⟨j2, hj2, k1, k2, k3⟩ :=
            witness_updateJobs (fun j2 => j2.jobId == jid)
              (fun j2 => { j2 with waiterDone := true }) s.jobs j3 hj3
              (fun _ => ⟨rfl, rfl, rfl⟩)
          exact ⟨j2, hj2, k1.trans h1, k2.trans h2, d, k3.trans h3, h4, h5⟩
        rcases hd : j.data with _ | d <;> rcases hp : j.posted with _ | r
        · exact ⟨hnodup, hlt2, halive, hsound⟩
        · exact ⟨hnodup, hlt2, halive, hsound⟩
        · exact ⟨hnodup, hlt2, halive, hsound⟩
        · refine ⟨hnodup, hlt2, halive, ?_⟩
          intro p hp2
          rcases List.mem_cons.1 hp2 with hp2 | hp2
          · subst hp2
            have hjid : j.jobId = jid := by
              have := List.find?_some hf
              simpa using this
            obtain ⟨j2, hj2, k1, k2, k3⟩ :=
              witness_updateJobs (fun j2 => j2.jobId == jid)
                (fun j2 => { j2 with waiterDone := true }) s.jobs j
                (List.mem_of_find?_eq_some hf)
                (fun _ => ⟨rfl, rfl, rfl⟩)
            exact ⟨j2, hj2, k1.trans hjid, k2.trans hp, d,
              k3.trans hd, rfl, rfl⟩
          · exact hsound p (List.mem_filter.1 hp2).1

theorem inv_init : Inv initState := by
  refine ⟨?_, ?_, ?_, ?_⟩ <;> simp [initState]

theorem inv_runEvents {s : CoordState} (h : Inv s) (es : List CoordEvent) :
    Inv (runEvents s es) := by
  induction es generalizing s with
  | nil => exact h
  | cons e t ih =>
    simp only [runEvents, List.foldl_cons]
    exact ih (inv_applyEvent h e)

theorem nodup_all_eq_length_le_one (l : List Nat) (v : Nat)
    (hn : l.Nodup) (ha : ∀ x ∈ l, x = v) : l.length ≤ 1 := by
  match l with
  | [] => simp
  | [a] => simp
  | a :: b :: t =>
    exfalso
    have h1 : a = v := ha a (by simp)
    have h2 : b = v := ha b (by simp)
    rw [List.nodup_cons] at hn
    exact hn.1 (by simp [h1, h2])

/-- **C3.** For every sequence of operations and asynchronous steps, at
most one worker process is alive at any time: starting a new job always
terminates the one in flight first. -/
theorem at_most_one_job_running (es : List CoordEvent) :
    aliveJobs (runEvents initState es) ≤ 1 := by
  have h : Inv (runEvents initState es) := inv_runEvents inv_init es
  set s := runEvents initState es with hs
  unfold aliveJobs
  cases hps : s.procSlot with
  | none =>
    have hnil : s.jobs.filter (fun j => j.alive) = [] := by
      rw [List.filter_eq_nil_iff]
      intro j hj hal
      have := h.alive_slot j hj (by simpa using hal)
      rw [hps] at this
      exact Option.noConfusion this
    simp only [hnil, List.length_nil]
    omega
  | some v =>
    have hsub : ((s.jobs.filter (fun j => j.alive)).map
        (fun j => j.jobId)).Nodup :=
      List.Nodup.sublist (List.Sublist.map _ (List.filter_sublist s.jobs))
        h.nodup
    have hall : ∀ x ∈ (s.jobs.filter (fun j => j.alive)).map
        (fun j => j.jobId), x = v := by
      intro x hx
      obtain ⟨j, hj, hje⟩ := List.mem_map.1 hx
      have hje2 : j.jobId = x := hje
      have hj2 := List.mem_filter.1 hj
      have h3 := h.alive_slot j hj2.1 (by simpa using hj2.2)
      rw [hps] at h3
      have : v = j.jobId := Option.some.inj h3
      omega
    have := nodup_all_eq_length_le_one _ v hsub hall
    simpa using this

/-- Counterexample to **C1** as stated: the worker for identifier 1 posts
its result to its queue while still running; a focus of identifier 2
arrives while it is running (and terminates it), yet the supervising
thread then commits the superseded job's result to the cache, and after
identifier 1 is focused again the stale result is observable via the
status. -/
theorem c1_counterexample :
    analysisRunning (runEvents initState
      [.focus 1 [10], .post 0 (.success 7)]) = true ∧
    lookupCache (runEvents initState
      [.focus 1 [10], .post 0 (.success 7), .focus 2 [20],
        .waiter 0]).cache 1 = some ⟨0, [10], .success 7⟩ ∧
    statusOf (runEvents initState
      [.focus 1 [10], .post 0 (.success 7), .focus 2 [20], .waiter 0,
        .post 1 (.failure 0), .procExit 1, .waiter 1, .focus 1 [10]]) =
      .done false := by
  decide

theorem deadUnposted_terminateSlot {s : CoordState} {jid : Nat}
    (h : deadUnposted s jid) : deadUnposted (terminateSlot s) jid := by
  obtain ⟨j, hj, h1, h2, h3⟩ := h
  cases hps : s.procSlot with
  | none =>
    refine ⟨j, ?_, h1, h2, h3⟩
    simp only [terminateSlot, hps]
    exact hj
  | some v =>
    obtain ⟨j2, hj2, k1, k2, k3⟩ :=
      dead_witness_updateJobs (fun j => j.jobId == v)
        (fun j => { j with alive := false }) s.jobs j hj
        (fun _ => ⟨rfl, rfl, h3⟩) h2 h3
    refine ⟨j2, ?_, k1.trans h1, k2, k3⟩
    simp only [terminateSlot, hps]
    exact hj2

theorem deadUnposted_startAnalysis {s : CoordState} {jid : Nat}
    (h : deadUnposted s jid) : deadUnposted (startAnalysis s) jid := by
  obtain ⟨j, hj, h1, h2, h3⟩ := deadUnposted_terminateSlot h
  have hjobs : (startAnalysis s).jobs = (terminateSlot s).jobs ++
      [{ jobId := (terminateSlot s).nextJobId, data := s.currentData,
         alive := true, posted := none, waiterDone := false }] := rfl
  refine ⟨j, ?_, h1, h2, h3⟩
  rw [hjobs]
  exact List.mem_append_left _ hj

theorem deadUnposted_applyEvent {s : CoordState} {jid : Nat}
    (h : deadUnposted s jid) (e : CoordEvent) :
    deadUnposted (applyEvent s e) jid := by
  obtain ⟨j, hj, h1, h2, h3⟩ := h
  cases e with
  | focus identifier packets =>
    simp only [applyEvent]
    by_cases hc : (lookupCache s.cache identifier).isNone = true
    · rw [if_pos hc]
      exact deadUnposted_startAnalysis ⟨j, hj, h1, h2, h3⟩
    · rw [if_neg hc]
      exact ⟨j, hj, h1, h2, h3⟩
  | unfocus =>
    obtain ⟨j2, hj2, k1, k2, k3⟩ :=
      deadUnposted_terminateSlot (s := s) ⟨j, hj, h1, h2, h3⟩
    exact ⟨j2, hj2, k1, k2, k3⟩
  | rerun =>
    simp only [applyEvent]
    by_cases hc : analysisRunning s = true
    · rw [if_pos hc]
      exact ⟨j, hj, h1, h2, h3⟩
    · rw [if_neg hc]
      exact deadUnposted_startAnalysis ⟨j, hj, h1, h2, h3⟩
  | post jid2 r =>
    simp only [applyEvent]
    exact dead_witness_updateJobs _ _ s.jobs j hj
      (fun hc => by
        exfalso
        have := (Bool.and_eq_true_iff.1 (Bool.and_eq_true_iff.1 hc).1).2
        rw [h2] at this
        exact Bool.noConfusion this)
      h2 h3 |>.imp (fun j2 => And.imp_right (And.imp_left (·.trans h1)))
  | procExit jid2 =>
    simp only [applyEvent]
    exact dead_witness_updateJobs _ _ s.jobs j hj
      (fun hc => by
        exfalso
        have := (Bool.and_eq_true_iff.1 (Bool.and_eq_true_iff.1 hc).1).2
        rw [h2] at this
        exact Bool.noConfusion this)
      h2 h3 |>.imp (fun j2 => And.imp_right (And.imp_left (·.trans h1)))
  | waiter jid2 =>
    cases hf : s.jobs.find? (fun j => j.jobId == jid2) with
    | none =>
      simp only [applyEvent, hf]
      exact ⟨j, hj, h1, h2, h3⟩
    | some jf =>
      simp only [applyEvent, hf]
      by_cases hb : (jf.alive || jf.waiterDone) = true
      · rw [if_pos hb]
        exact ⟨j, hj, h1, h2, h3⟩
      · rw [if_neg hb]
        obtain ⟨j2, hj2, k1, k2, k3⟩ :=
          dead_witness_updateJobs (fun j2 => j2.jobId == jid2)
            (fun j2 => { j2 with waiterDone := true }) s.jobs j hj
            (fun _ => ⟨rfl, h2, h3⟩) h2 h3
        rcases hd : jf.data with _ | d <;> rcases hp : jf.posted with _ | r
        · exact ⟨j2, hj2, k1.trans h1, k2, k3⟩
        · exact ⟨j2, hj2, k1.trans h1, k2, k3⟩
        · exact ⟨j2, hj2, k1.trans h1, k2, k3⟩
        · exact ⟨j2, hj2, k1.trans h1, k2, k3⟩

theorem cache_applyEvent (s : CoordState) (e : CoordEvent) :
    ∀ p ∈ (applyEvent s e).cache, p ∈ s.cache ∨
      ∃ j ∈ s.jobs, j.jobId = p.2.jobId ∧ j.posted = some p.2.result := by
  cases e with
  | focus identifier packets =>
    intro p hp
    left
    simp only [applyEvent] at hp
    by_cases hc : (lookupCache s.cache identifier).isNone = true
    · rw [if_pos hc] at hp
      have : (startAnalysis
          { s with currentData := some ⟨identifier, packets⟩ }).cache =
        s.cache := terminateSlot_cache _
      rw [this] at hp
      exact hp
    · rw [if_neg hc] at hp
      exact hp
  | unfocus =>
    intro p hp
    left
    have : (applyEvent s .unfocus).cache = s.cache := terminateSlot_cache s
    rw [this] at hp
    exact hp
  | rerun =>
    intro p hp
    left
    simp only [applyEvent] at hp
    by_cases hc : analysisRunning s = true
    · rw [if_pos hc] at hp
      exact hp
    · rw [if_neg hc] at hp
      have : (startAnalysis s).cache = s.cache := terminateSlot_cache s
      rw [this] at hp
      exact hp
  | post jid2 r =>
    intro p hp
    left
    exact hp
  | procExit jid2 =>
    intro p hp
    left
    exact hp
  | waiter jid2 =>
    cases hf : s.jobs.find? (fun j => j.jobId == jid2) with
    | none =>
      intro p hp
      left
      simpa only [applyEvent, hf] using hp
    | some jf =>
      by_cases hb : (jf.alive || jf.waiterDone) = true
      · intro p hp
        left
        simp only [applyEvent, hf] at hp
        rw [if_pos hb] at hp
        exact hp
      · rcases hd : jf.data with _ | d <;> rcases hp2 : jf.posted with _ | r
        · intro p hp
          left
          simp only [applyEvent, hf, hd, hp2] at hp
          rw [if_neg hb] at hp
          exact hp
        · intro p hp
          left
          simp only [applyEvent, hf, hd, hp2] at hp
          rw [if_neg hb] at hp
          exact hp
        · intro p hp
          left
          simp only [applyEvent, hf, hd, hp2] at hp
          rw [if_neg hb] at hp
          exact hp
        · intro p hp
          simp only [applyEvent, hf, hd, hp2] at hp
          rw [if_neg hb] at hp
          rcases List.mem_cons.1 hp with hp | hp
          · right
            refine ⟨jf, List.mem_of_find?_eq_some hf, ?_, ?_⟩
            · have := List.find?_some hf
              rw [hp]
              simpa using this
            · rw [hp]
              exact hp2
          · left
            exact (List.mem_filter.1 hp).1

theorem noCacheJob_applyEvent {s : CoordState} {jid : Nat} (h : Inv s)
    (hd : deadUnposted s jid) (hn : ∀ p ∈ s.cache, p.2.jobId ≠ jid)
    (e : CoordEvent) : ∀ p ∈ (applyEvent s e).cache, p.2.jobId ≠ jid := by
  intro p hp heq
  rcases cache_applyEvent s e p hp with hold | ⟨j, hj, hjid, hpost⟩
  · exact hn p hold heq
  · obtain ⟨j2, hj2, hid2, hal2, hpost2⟩ := hd
    have : j = j2 :=
      List.inj_on_of_nodup_map h.nodup hj hj2 (by rw [hjid, heq, hid2])
    rw [this, hpost2] at hpost
    exact Option.noConfusion hpost

theorem noCacheJob_runEvents {s : CoordState} {jid : Nat} (h : Inv s)
    (hd : deadUnposted s jid) (hn : ∀ p ∈ s.cache, p.2.jobId ≠ jid)
    (es : List CoordEvent) :
    ∀ p ∈ (runEvents s es).cache, p.2.jobId ≠ jid := by
  induction es generalizing s with
  | nil => exact hn
  | cons e t ih =>
    simp only [runEvents, List.foldl_cons]
    exact ih (inv_applyEvent h e) (deadUnposted_applyEvent hd e)
      (noCacheJob_applyEvent h hd hn e)

/-- **C1 amended.** A job that was terminated before it posted its result
(the supersede arriving while its queue was still empty) is never
committed to the result cache, in any continuation of the execution; in
particular its completion is never observable.  (By the counterexample, a
superseded job IS committed when its result was already in its queue at
termination time.) -/
theorem superseded_unposted_never_committed (es1 es2 : List CoordEvent)
    (jid : Nat) (h : deadUnposted (runEvents initState es1) jid) :
    ∀ p ∈ (runEvents initState (es1 ++ es2)).cache, p.2.jobId ≠ jid := by
  have h1 : Inv (runEvents initState es1) := inv_runEvents inv_init es1
  have hstart : ∀ p ∈ (runEvents initState es1).cache, p.2.jobId ≠ jid := by
    intro p hp heq
    obtain ⟨j, hj, hidj, halj, hpostj⟩ := h
    obtain ⟨j2, hj2, hid2, hpost2, _⟩ := h1.cache_sound p hp
    have : j2 = j :=
      List.inj_on_of_nodup_map h1.nodup hj2 hj (by rw [hid2, heq, hidj])
    rw [this, hpostj] at hpost2
    exact Option.noConfusion hpost2
  rw [show runEvents initState (es1 ++ es2) =
    runEvents (runEvents initState es1) es2 from List.foldl_append _ _ _ _]
  exact noCacheJob_runEvents h1 h hstart es2

/-- Witness for the amended C1: the second focus terminates job 0 before
it posted, and its late post and waiter steps commit nothing. -/
theorem superseded_unposted_never_committed_witness :
    deadUnposted (runEvents initState [.focus 1 [10], .focus 2 [20]]) 0 ∧
    (∀ p ∈ (runEvents initState ([.focus 1 [10], .focus 2 [20]] ++
      [.post 0 (.success 7), .waiter 0])).cache, p.2.jobId ≠ 0) :=
  ⟨by unfold deadUnposted; decide,
    superseded_unposted_never_committed [.focus 1 [10], .focus 2 [20]]
      [.post 0 (.success 7), .waiter 0] 0 (by unfold deadUnposted; decide)⟩

/-- Counterexample to **C2** as stated: after `focus(1, F)` the job is
still pending (alive) and nothing is cached, yet the repeated identical
`focus(1, F)` starts a second job (the pending one is cancelled and a
fresh worker started), so two jobs have been started. -/
theorem c2_counterexample :
    (∃ j ∈ (runEvents initState [.focus 1 [5]]).jobs, j.alive = true) ∧
    (runEvents initState [.focus 1 [5], .focus 1 [5]]).jobs.length = 2 ∧
    (runEvents initState [.focus 1 [5], .focus 1 [5]]).cache = [] := by
  decide

/-- **C2 amended.** `focus(X, F)` starts no new job exactly when a cached
result for `X` exists: with an entry in the cache the call only records
the new snapshot; while the first job is merely pending (nothing cached
yet), a repeated identical focus cancels it and starts a fresh job (see
the counterexample). -/
theorem focus_cached_starts_no_job (s : CoordState) (identifier : Nat)
    (packets : List Nat)
    (h : (lookupCache s.cache identifier).isSome = true) :
    (applyEvent s (.focus identifier packets)).jobs = s.jobs ∧
    (applyEvent s (.focus identifier packets)).procSlot = s.procSlot ∧
    (applyEvent s (.focus identifier packets)).nextJobId = s.nextJobId ∧
    (applyEvent s (.focus identifier packets)).cache = s.cache := by
  have hc : (lookupCache s.cache identifier).isNone = false := by
    rcases hx : lookupCache s.cache identifier with _ | e
    · rw [hx] at h
      exact Bool.noConfusion h
    · rfl
  simp [applyEvent, hc]

/-- Witness for the amended C2 on a state with a cached entry. -/
theorem focus_cached_starts_no_job_witness :
    ((lookupCache (⟨none, none, [], [(1, ⟨0, [5], .success 7⟩)], 1⟩ :
      CoordState).cache 1).isSome = true) ∧
    ((applyEvent (⟨none, none, [], [(1, ⟨0, [5], .success 7⟩)], 1⟩ :
        CoordState) (.focus 1 [5])).jobs =
      (⟨none, none, [], [(1, ⟨0, [5], .success 7⟩)], 1⟩ :
        CoordState).jobs ∧
    (applyEvent (⟨none, none, [], [(1, ⟨0, [5], .success 7⟩)], 1⟩ :
        CoordState) (.focus 1 [5])).procSlot =
      (⟨none, none, [], [(1, ⟨0, [5], .success 7⟩)], 1⟩ :
        CoordState).procSlot ∧
    (applyEvent (⟨none, none, [], [(1, ⟨0, [5], .success 7⟩)], 1⟩ :
        CoordState) (.focus 1 [5])).nextJobId =
      (⟨none, none, [], [(1, ⟨0, [5], .success 7⟩)], 1⟩ :
        CoordState).nextJobId ∧
    (applyEvent (⟨none, none, [], [(1, ⟨0, [5], .success 7⟩)], 1⟩ :
        CoordState) (.focus 1 [5])).cache =
      (⟨none, none, [], [(1, ⟨0, [5], .success 7⟩)], 1⟩ :
        CoordState).cache) :=
  ⟨by decide,
    focus_cached_starts_no_job
      ⟨none, none, [], [(1, ⟨0, [5], .success 7⟩)], 1⟩ 1 [5] (by decide)⟩

/-- Counterexample to **C4** as stated: `rerun()` with no current focus
(the initial state) is not a no-op: it starts a worker process (one job
exists afterwards) and the state changes. -/
theorem c4_counterexample :
    (runEvents initState [.rerun]).jobs.length = 1 ∧
    runEvents initState [.rerun] ≠ initState := by
  decide

/-- **C4 amended.** `rerun()` with no current focus does start a job, but
one whose captured data is absent; no such job is ever committed: every
result-cache entry in every execution originates from a job that captured
focus data, whose identifier and snapshot it records. -/
theorem cache_entries_from_focused_jobs (es : List CoordEvent) :
    ∀ p ∈ (runEvents initState es).cache,
      ∃ j ∈ (runEvents initState es).jobs, j.jobId = p.2.jobId ∧
        ∃ d, j.data = some d ∧ d.identifier = p.1 ∧
          d.packets = p.2.packets := by
  intro p hp
  obtain ⟨j, hj, h1, _, d, h3, h4, h5⟩ :=
    (inv_runEvents inv_init es).cache_sound p hp
  exact ⟨j, hj, h1, d, h3, h4, h5⟩

/-- Witness for the amended C4 on an execution that commits a result. -/
theorem cache_entries_from_focused_jobs_witness :
    ((1, (⟨0, [5], .success 3⟩ : ACacheEntry)) ∈
      (runEvents initState [.focus 1 [5], .post 0 (.success 3),
        .procExit 0, .waiter 0]).cache) ∧
    (∃ j ∈ (runEvents initState [.focus 1 [5], .post 0 (.success 3),
        .procExit 0, .waiter 0]).jobs,
      j.jobId = (⟨0, [5], .success 3⟩ : ACacheEntry).jobId ∧
      ∃ d, j.data = some d ∧ d.identifier = 1 ∧
        d.packets = (⟨0, [5], .success 3⟩ : ACacheEntry).packets) :=
  ⟨by decide,
    cache_entries_from_focused_jobs
      [.focus 1 [5], .post 0 (.success 3), .procExit 0, .waiter 0]
      (1, ⟨0, [5], .success 3⟩) (by decide)⟩

/-! ## Theorems: bit flip correlation -/

theorem convolveOnes_all_zero {xs : List Nat} (h : ∀ v ∈ xs, v = 0)
    (w : Nat) : ∀ v ∈ convolveOnes xs w, v = 0 := by
  intro v hv
  obtain ⟨j, _, rfl⟩ := List.mem_map.1 hv
  have hs : ((List.range xs.length).map
      (fun i => if i ≤ j ∧ j < i + w then xs.getD i 0 else 0)).sum = 0 := by
    refine List.sum_eq_zero ?_
    intro x hx
    obtain ⟨i, _, rfl⟩ := List.mem_map.1 hx
    by_cases hc : i ≤ j ∧ j < i + w
    · rw [if_pos hc]
      rcases hg : xs[i]? with _ | v2
      · simp [List.getD_eq_getElem?_getD, hg]
      · rw [List.getD_eq_getElem?_getD, hg]
        exact h v2 (List.getElem?_mem hg)
    · rw [if_neg hc]
  rw [hs]

theorem varQ_all_zero {xs : List ℚ} (h : ∀ v ∈ xs, v = 0) :
    varQ xs = 0 := by
  have hsum : xs.sum = 0 := List.sum_eq_zero h
  have hmean : meanQ xs = 0 := by
    rw [meanQ, hsum, zero_div]
  rw [varQ]
  have : (xs.map (fun x => (x - meanQ xs) ^ 2)).sum = 0 := by
    refine List.sum_eq_zero ?_
    intro x hx
    obtain ⟨v, hv, rfl⟩ := List.mem_map.1 hx
    rw [h v hv, hmean]
    ring
  rw [this, zero_div]

theorem smoothedSeries_const_bit {bodies : List Nat} {k : Nat}
    (hk : k < 64)
    (h : ∀ x ∈ bodies, ∀ y ∈ bodies, x.testBit k = y.testBit k) :
    ∀ v ∈ smoothedSeries bodies k, v = 0 := by
  refine convolveOnes_all_zero ?_ _
  intro v hv
  obtain ⟨x, hx, rfl⟩ := List.mem_map.1 hv
  obtain ⟨p, hp, rfl⟩ := List.mem_map.1 hx
  have hmem := List.of_mem_zip hp
  have h1 : p.1 ∈ (bodies.map (· % 2 ^ 64)).take bcotMaxSamples := hmem.1
  have h2 : p.2 ∈ (bodies.map (· % 2 ^ 64)).take bcotMaxSamples :=
    List.tail_subset _ hmem.2
  obtain ⟨x1, hx1, he1⟩ := List.mem_map.1 (List.mem_of_mem_take h1)
  obtain ⟨x2, hx2, he2⟩ := List.mem_map.1 (List.mem_of_mem_take h2)
  rw [shiftRight_and_one, Nat.testBit_xor, ← he1, ← he2]
  have hb1 : (x1 % 2 ^ 64).testBit k = x1.testBit k := by
    rw [Nat.testBit_mod_two_pow]
    simp [hk]
  have hb2 : (x2 % 2 ^ 64).testBit k = x2.testBit k := by
    rw [Nat.testBit_mod_two_pow]
    simp [hk]
  rw [hb1, hb2, h x1 hx1 x2 hx2]
  simp

/-- Counterexample to **C6** as stated: on the single frame `[0]` with a
valid bit width 2 the code does not return an array of length
`bitWidth - 1`; the adjacent XOR series is empty and `np.convolve` raises
a `ValueError`, which escapes `calculate_bit_flip_correlation`. -/
theorem c6_counterexample :
    calculate_bit_flip_correlation [0] 2 = .error "a cannot be empty" := by
  rfl

/-- **C6 amended.** For `1 ≤ bitWidth ≤ 64`: with fewer than two frames
the convolution raises (no array is returned); with at least two frames
`calculate_bit_flip_correlation` succeeds with an array of length exactly
`bitWidth - 1`, entry `i` being the correlation of the uint8-smoothed
series (window sums mod 256) of bits `i` and `i + 1`; whenever either
smoothed series of a pair has zero variance the entry is `none` (the NaN
of `np.corrcoef`), never a number; and if bit `k` is constant across all
frames, the entries `k - 1` and `k` are `none` whenever they exist. -/
theorem calculate_bit_flip_correlation_spec (bodies : List Nat)
    (size : Nat) (h1 : 1 ≤ size) (h64 : size ≤ 64) :
    (bodies.length ≤ 1 →
      calculate_bit_flip_correlation bodies size =
        .error "a cannot be empty") ∧
    (2 ≤ bodies.length →
      ∃ l, calculate_bit_flip_correlation bodies size = .ok l ∧
        l.length = size - 1 ∧
        (∀ i, i < size - 1 →
          l.getD i none = corrcoefQ
            ((smoothedSeries bodies i).map (Nat.cast : Nat → ℚ))
            ((smoothedSeries bodies (i + 1)).map (Nat.cast : Nat → ℚ))) ∧
        (∀ i, i < size - 1 →
          (varQ ((smoothedSeries bodies i).map (Nat.cast : Nat → ℚ)) = 0 ∨
            varQ ((smoothedSeries bodies (i + 1)).map
              (Nat.cast : Nat → ℚ)) = 0) →
          l.getD i none = none) ∧
        (∀ k, k < size →
          (∀ x ∈ bodies, ∀ y ∈ bodies, x.testBit k = y.testBit k) →
          ∀ i, i < size - 1 → (i = k - 1 ∨ i = k) →
            l.getD i none = none)) := by
  have hlt : ¬size < 1 := by omega
  have hgt : ¬size > 64 := by omega
  constructor
  · intro hsmall
    simp only [calculate_bit_flip_correlation, if_neg hlt, if_neg hgt,
      if_pos hsmall]
  intro hn
  have hbig : ¬bodies.length ≤ 1 := by omega
  have heq : calculate_bit_flip_correlation bodies size =
      .ok ((List.range (size - 1)).map (fun row =>
        corrcoefQ ((smoothedSeries bodies row).map (Nat.cast : Nat → ℚ))
          ((smoothedSeries bodies (row + 1)).map (Nat.cast : Nat → ℚ)))) := by
    simp only [calculate_bit_flip_correlation, if_neg hlt, if_neg hgt,
      if_neg hbig]
  have hget : ∀ i, i < size - 1 →
      ((List.range (size - 1)).map (fun row =>
        corrcoefQ ((smoothedSeries bodies row).map (Nat.cast : Nat → ℚ))
          ((smoothedSeries bodies (row + 1)).map
            (Nat.cast : Nat → ℚ)))).getD i none =
      corrcoefQ ((smoothedSeries bodies i).map (Nat.cast : Nat → ℚ))
        ((smoothedSeries bodies (i + 1)).map (Nat.cast : Nat → ℚ)) := by
    intro i hi
    rw [List.getD_eq_getElem?_getD, List.getElem?_map, List.getElem?_range hi]
    rfl
  refine ⟨_, heq, by simp, hget, ?_, ?_⟩
  · intro i hi hvar
    rw [hget i hi, corrcoefQ, if_pos hvar]
  · intro k hk hconst i hi hik
    have hk64 : k < 64 := lt_of_lt_of_le hk h64
    have hzero : varQ ((smoothedSeries bodies k).map
        (Nat.cast : Nat → ℚ)) = 0 := by
      refine varQ_all_zero ?_
      intro v hv
      obtain ⟨v2, hv2, rfl⟩ := List.mem_map.1 hv
      rw [smoothedSeries_const_bit hk64 hconst v2 hv2]
      rfl
    rw [hget i hi, corrcoefQ]
    rcases hik with hik | hik
    · by_cases hk0 : k = 0
      · have : i = k := by omega
        rw [if_pos (Or.inl (by rw [this]; exact hzero))]
      · have : i + 1 = k := by omega
        rw [if_pos (Or.inr (by rw [this]; exact hzero))]
    · rw [if_pos (Or.inl (by rw [hik]; exact hzero))]

/-- Witness for the amended C6 at bit width 2 (hypotheses discharged;
the conclusion covers both the raising and the succeeding regime). -/
theorem calculate_bit_flip_correlation_spec_witness :
    (1 ≤ 2 ∧ 2 ≤ 64) ∧
    ((([0, 1] : List Nat).length ≤ 1 →
      calculate_bit_flip_correlation [0, 1] 2 =
        .error "a cannot be empty") ∧
    (2 ≤ ([0, 1] : List Nat).length →
      ∃ l, calculate_bit_flip_correlation [0, 1] 2 = .ok l ∧
        l.length = 2 - 1 ∧
        (∀ i, i < 2 - 1 →
          l.getD i none = corrcoefQ
            ((smoothedSeries [0, 1] i).map (Nat.cast : Nat → ℚ))
            ((smoothedSeries [0, 1] (i + 1)).map (Nat.cast : Nat → ℚ))) ∧
        (∀ i, i < 2 - 1 →
          (varQ ((smoothedSeries [0, 1] i).map (Nat.cast : Nat → ℚ)) = 0 ∨
            varQ ((smoothedSeries [0, 1] (i + 1)).map
              (Nat.cast : Nat → ℚ)) = 0) →
          l.getD i none = none) ∧
        (∀ k, k < 2 →
          (∀ x ∈ ([0, 1] : List Nat), ∀ y ∈ ([0, 1] : List Nat),
            x.testBit k = y.testBit k) →
          ∀ i, i < 2 - 1 → (i = k - 1 ∨ i = k) →
            l.getD i none = none))) :=
  ⟨⟨by decide, by decide⟩,
    calculate_bit_flip_correlation_spec [0, 1] 2 (by decide) (by decide)⟩

/-! ## Theorems: layout renderer -/

theorem format_big_congr (m : CanMessage) (h1 h2 : Option Char)
    (hsame : ∀ l ∈ signalLetters m, (h1 = some l ↔ h2 = some l)) :
    format_big m h1 = format_big m h2 := by
  unfold format_big
  refine List.filterMap_congr ?_
  intro sl hsl
  have hin : sl.2 ∈ signalLetters m := (List.of_mem_zip hsl).2
  have hiff := hsame sl.2 hin
  by_cases hb : sl.1.byte_order = .big
  · by_cases hh : h1 = some sl.2
    · simp [hb, hh, hiff.1 hh]
    · have hh2 : ¬h2 = some sl.2 := fun he => hh (hiff.2 he)
      simp [hb, hh, hh2]
  · simp [hb]

theorem format_little_congr (m : CanMessage) (h1 h2 : Option Char)
    (hsame : ∀ l ∈ signalLetters m, (h1 = some l ↔ h2 = some l)) :
    format_little m h1 = format_little m h2 := by
  unfold format_little
  refine List.filterMap_congr ?_
  intro sl hsl
  have hin : sl.2 ∈ signalLetters m := (List.of_mem_zip hsl).2
  have hiff := hsame sl.2 hin
  by_cases hb : sl.1.byte_order = .little
  · by_cases hh : h1 = some sl.2
    · simp [hb, hh, hiff.1 hh]
    · have hh2 : ¬h2 = some sl.2 := fun he => hh (hiff.2 he)
      simp [hb, hh, hh2]
  · simp [hb]

theorem signalLines_congr (m : CanMessage) (h1 h2 : Option Char)
    (hsame : ∀ l ∈ signalLetters m, (h1 = some l ↔ h2 = some l)) :
    signalLines m h1 = signalLines m h2 := by
  unfold signalLines
  rw [format_big_congr m h1 h2 hsame, format_little_congr m h1 h2 hsame]

/-- **C10.** For every message and every highlight character that is not
one of the letters assigned to the signals of that message, the rendered
layout is byte-identical to the one rendered with no highlight: the
highlight only affects the fill characters of the signal whose letter it
equals. -/
theorem message_layout_string_foreign_highlight (m : CanMessage) (c : Char)
    (h : c ∉ signalLetters m) :
    message_layout_string m (some c) = message_layout_string m none := by
  have hsig : signalLines m (some c) = signalLines m none := by
    refine signalLines_congr m (some c) none ?_
    intro l hl
    constructor
    · intro he
      exact absurd (by rw [Option.some.inj he]; exact hl) h
    · intro he
      exact Option.noConfusion he
  simp only [message_layout_string]
  rw [hsig]

/-- Witness for C10 at the one-byte message and the unassigned letter z. -/
theorem message_layout_string_foreign_highlight_witness :
    'z' ∉ signalLetters oneByteMessage ∧
    message_layout_string oneByteMessage (some 'z') =
      message_layout_string oneByteMessage none :=
  ⟨by decide,
    message_layout_string_foreign_highlight oneByteMessage 'z' (by decide)⟩

/-- **C9.** For the one-byte message with a single big-endian signal
spanning the whole byte, and any highlight: there is exactly one byte row;
the union line contains no `X` overlap marker; the signal letter `a`
stands at the tail position (column 23); and the signal marker line is the
head `<`, then `3 * 8 - 2 = 22` fill characters (`=` exactly if `a` is the
highlighted letter, `-` otherwise), then the tail letter. -/
theorem render_one_byte_big_signal (h : Option Char) :
    (byteLines oneByteMessage h).length = 1 ∧
    'X' ∉ signalsUnion oneByteMessage h ∧
    (signalsUnion oneByteMessage h).getD 23 ' ' = 'a' ∧
    format_big oneByteMessage h =
      ['<' :: (List.replicate 22 (if h = some 'a' then '=' else '-') ++
        ['a'])] := by
  by_cases hc : h = some 'a'
  · subst hc
    refine ⟨by decide, by decide, by decide, ?_⟩
    simp only [if_pos rfl]
    decide
  · have hsig : signalLines oneByteMessage h =
        signalLines oneByteMessage none := by
      refine signalLines_congr oneByteMessage h none ?_
      intro l hl
      have : l = 'a' := by
        have : signalLetters oneByteMessage = ['a'] := by decide
        rw [this] at hl
        exact List.mem_singleton.1 hl
      subst this
      constructor
      · intro he
        exact absurd he hc
      · intro he
        exact Option.noConfusion he
    refine ⟨?_, ?_, ?_, ?_⟩
    · rw [byteLines, hsig]
      decide
    · rw [signalsUnion, hsig]
      decide
    · rw [signalsUnion, hsig]
      decide
    · have hbig : format_big oneByteMessage h =
          format_big oneByteMessage none := by
        refine format_big_congr oneByteMessage h none ?_
        intro l hl
        have hl2 : l = 'a' := by
          have hx : signalLetters oneByteMessage = ['a'] := by decide
          rw [hx] at hl
          exact List.mem_singleton.1 hl
        subst hl2
        exact ⟨fun he => absurd he hc, fun he => Option.noConfusion he⟩
      rw [hbig, if_neg hc]
      decide

end SpecProof
